import Mathlib

/-!
Shallow embedding of the analytics core of the tradesmart.ai repository
(`backend/agent/core/analytics/`): OHLC aggregation and backfill
(`ohlc.py`), dataset validation (`validation.py`), reversal detection
(`reversals.py`), band clustering (`bands.py`), Wilder RSI
(`indicators.py`) and risk/reward suggestions (`risk_reward.py`).

Python floats are modelled as exact rationals (`ℚ`), epoch seconds and
Pyth mantissas/exponents as `Int`, Python `None`/NaN sentinels as
`Option`.  Python's stable `sorted`/`list.sort` is modelled by a stable
insertion sort (`sortBy`); `float("inf")` for the risk/reward ratio is
modelled as `none`.  `while` loops are modelled with an explicit fuel
argument that is provably large enough at every call site.
-/

set_option maxRecDepth 3000

/-- Stable insertion of an element into a list: `a` is placed before the
first element `b` with `le a b`.  Used to model Python's stable sort. -/
def insertSorted {α : Type} (le : α → α → Bool) (a : α) : List α → List α
  | [] => [a]
  | b :: t => if le a b then a :: b :: t else b :: insertSorted le a t

/-- Stable insertion sort, modelling Python's stable `sorted(key=...)`. -/
def sortBy {α : Type} (le : α → α → Bool) (l : List α) : List α :=
  l.foldr (insertSorted le) []

/-- Maximum of a list of rationals, `max(prices)` on a nonempty Python list
(0 as an irrelevant default for the empty list). -/
def listMax : List ℚ → ℚ
  | [] => 0
  | x :: xs => xs.foldl max x

/-- Minimum of a list of rationals, `min(prices)` on a nonempty Python list. -/
def listMin : List ℚ → ℚ
  | [] => 0
  | x :: xs => xs.foldl min x

/-- Exact power of ten, modelling `Decimal(10) ** expo` for nonnegative
exponents. -/
def pow10 : Nat → ℚ
  | 0 => 1
  | n + 1 => 10 * pow10 n

/-! ## ohlc.py -/

/-- `FOUR_HOURS_SECONDS = 4 * 60 * 60` from `ohlc.py`. -/
def FOUR_HOURS_SECONDS : Int := 14400

/-- The `Candle` dataclass of `ohlc.py` (`open` is a Lean keyword, hence
the field name `open_`). -/
structure Candle where
  start_time : Int
  end_time : Int
  open_ : ℚ
  high : ℚ
  low : ℚ
  close : ℚ
  count : Nat
  synthetic : Bool
deriving DecidableEq, Repr

instance : Inhabited Candle := ⟨⟨0, 0, 0, 0, 0, 0, 0, false⟩⟩

/-- A parsed Pyth price update `{"publish_time", "price", "expo"}`. -/
structure PUpdate where
  publish_time : Int
  price : Int
  expo : Int
deriving DecidableEq, Repr

/-- `_window_bounds` from `ohlc.py`: Python `//` is floor division, which
is `Int.fdiv`. -/
def _window_bounds (epoch_seconds : Int) : Int × Int :=
  let start := (Int.fdiv epoch_seconds FOUR_HOURS_SECONDS) * FOUR_HOURS_SECONDS
  (start, start + FOUR_HOURS_SECONDS)

/-- `_to_float_price` from `ohlc.py`: `mantissa * 10 ** expo`, exactly. -/
def _to_float_price (price expo : Int) : ℚ :=
  if 0 ≤ expo then (price : ℚ) * pow10 expo.toNat
  else (price : ℚ) / pow10 (-expo).toNat

/-- Is the update inside the half-open window `[start_time, end_time)`?
This is the negation of the `continue` filter in
`aggregate_updates_to_4h_candles`. -/
def inWindow (start_time end_time : Int) (u : PUpdate) : Bool :=
  decide (start_time ≤ u.publish_time) && decide (u.publish_time < end_time)

/-- `aggregate_updates_to_4h_candles` from `ohlc.py`.  The Python dict of
buckets, iterated as `sorted(buckets.items())`, is modelled by the sorted
list of distinct bucket keys of the in-window updates; each bucket's entry
list (in insertion = input order) is stable-sorted by `publish_time`, just
like `entries.sort(key=lambda t: t[0])`. -/
def aggregate_updates_to_4h_candles
    (updates : List PUpdate) (start_time end_time : Int) : List Candle :=
  let filtered := updates.filter (inWindow start_time end_time)
  let keys := sortBy (fun a b => decide (a ≤ b))
    (filtered.map (fun u => (_window_bounds u.publish_time).1)).dedup
  keys.map (fun window_start =>
    let entries := sortBy (fun a b => decide (a.publish_time ≤ b.publish_time))
      (filtered.filter (fun u => decide ((_window_bounds u.publish_time).1 = window_start)))
    let prices := entries.map (fun u => _to_float_price u.price u.expo)
    { start_time := window_start
      end_time := window_start + FOUR_HOURS_SECONDS
      open_ := prices.headD 0
      high := listMax prices
      low := listMin prices
      close := prices.getLastD 0
      count := prices.length
      synthetic := false })

/-- The synthetic gap-filling candle built inside `backfill_missing_candles`:
`open = high = low = close = last_close`, `count = 0`, `synthetic = True`. -/
def mkSyntheticCandle (cursor : Int) (last_close : ℚ) : Candle :=
  { start_time := cursor
    end_time := cursor + FOUR_HOURS_SECONDS
    open_ := last_close
    high := last_close
    low := last_close
    close := last_close
    count := 0
    synthetic := true }

/-- The dict `by_start = {c.start_time: c for c in candles}` looked up at
key `k`: a Python dict comprehension keeps the *last* candle with a given
`start_time`, hence the lookup on the reversed list. -/
def by_start_lookup (candles : List Candle) (k : Int) : Option Candle :=
  candles.reverse.find? (fun c => decide (c.start_time = k))

/-- `by_start[min(by_start.keys())].open` when `by_start` is nonempty:
the seed close used by `backfill_missing_candles` when no previous close
exists yet. -/
def seed_open (candles : List Candle) : Option ℚ :=
  match candles.map (fun c => c.start_time) with
  | [] => none
  | k :: ks => (by_start_lookup candles (ks.foldl min k)).map (fun c => c.open_)

/-- The aligned first window start of `backfill_missing_candles`:
`first_start, _ = _window_bounds(start_time); if first_start < start_time:
first_start += FOUR_HOURS_SECONDS`. -/
def first_aligned_start (start_time : Int) : Int :=
  let fs := (_window_bounds start_time).1
  if fs < start_time then fs + FOUR_HOURS_SECONDS else fs

/-- The pre-loop scan of `backfill_missing_candles` that initialises
`last_close` from candles sorted by `start_time` that lie strictly before
`first_start` (the loop breaks at the first candle `≥ first_start`, i.e. a
`takeWhile` on the sorted list). -/
def initial_last_close (candles : List Candle) (first_start : Int) : Option ℚ :=
  (((sortBy (fun a b => decide (a.start_time ≤ b.start_time)) candles).takeWhile
      (fun c => decide (c.start_time < first_start))).getLast?).map (fun c => c.close)

/-- The `while cursor < end_time` loop of `backfill_missing_candles`, with
an explicit fuel argument (the loop advances `cursor` by
`FOUR_HOURS_SECONDS ≥ 1` each iteration, so `(end_time - cursor).toNat`
fuel always suffices). -/
def backfillLoop (candles : List Candle) (end_time : Int) :
    Nat → Int → Option ℚ → List Candle
  | 0, _, _ => []
  | fuel + 1, cursor, last_close =>
    if cursor < end_time then
      match by_start_lookup candles cursor with
      | some existing =>
          existing ::
            backfillLoop candles end_time fuel (cursor + FOUR_HOURS_SECONDS) (some existing.close)
      | none =>
        match last_close with
        | some v =>
            mkSyntheticCandle cursor v ::
              backfillLoop candles end_time fuel (cursor + FOUR_HOURS_SECONDS) (some v)
        | none =>
          match seed_open candles with
          | some so =>
              mkSyntheticCandle cursor so ::
                backfillLoop candles end_time fuel (cursor + FOUR_HOURS_SECONDS) (some so)
          | none =>
              backfillLoop candles end_time fuel (cursor + FOUR_HOURS_SECONDS) none
    else []

/-- `backfill_missing_candles` from `ohlc.py`. -/
def backfill_missing_candles
    (candles : List Candle) (start_time end_time : Int) : List Candle :=
  let fs := first_aligned_start start_time
  backfillLoop candles end_time (end_time - fs).toNat fs (initial_last_close candles fs)

/-! ## reversals.py -/

/-- The `ReversalKind` literal type of `reversals.py`. -/
inductive ReversalKind
  | peak
  | trough
deriving DecidableEq, Repr

/-- The `ReversalPoint` dataclass of `reversals.py`. -/
structure ReversalPoint where
  index : Nat
  timestamp : Int
  price : ℚ
  kind : ReversalKind
  magnitude_pct : ℚ
deriving DecidableEq, Repr

/-- `_is_peak` from `reversals.py`. -/
def _is_peak (prev_close curr_close next_close : ℚ) : Bool :=
  (decide (prev_close < curr_close) && decide (next_close ≤ curr_close)) ||
    (decide (prev_close ≤ curr_close) && decide (next_close < curr_close))

/-- `_is_trough` from `reversals.py`. -/
def _is_trough (prev_close curr_close next_close : ℚ) : Bool :=
  (decide (curr_close < prev_close) && decide (curr_close ≤ next_close)) ||
    (decide (curr_close ≤ prev_close) && decide (curr_close < next_close))

/-- The loop state of `detect_reversals`: accumulated points,
`last_pivot_price` and `last_index`. -/
structure DetectState where
  reversals : List ReversalPoint
  last_pivot_price : Option ℚ
  last_index : Option Nat
deriving Repr

/-- One iteration of the `for i in range(1, n - 1)` loop of
`detect_reversals`. -/
def detectStep (candles : List Candle) (min_separation_bars : Nat)
    (min_price_move_pct : ℚ) (st : DetectState) (i : Nat) : DetectState :=
  let prev_close := (candles.getD (i - 1) default).close
  let close := (candles.getD i default).close
  let next_close := (candles.getD (i + 1) default).close
  let kind : Option ReversalKind :=
    if _is_peak prev_close close next_close then some ReversalKind.peak
    else if _is_trough prev_close close next_close then some ReversalKind.trough
    else none
  match kind with
  | none => st
  | some k =>
    let sepReject :=
      match st.last_index with
      | some li => decide (i - li < min_separation_bars)
      | none => false
    if sepReject then st
    else
      let magnitude_pct :=
        match st.last_pivot_price with
        | some lp => if 0 < lp then |close - lp| / lp else 0
        | none => 0
      if decide (magnitude_pct < min_price_move_pct) && st.last_pivot_price.isSome then st
      else
        { reversals := st.reversals ++
            [{ index := i
               timestamp := (candles.getD i default).start_time
               price := close
               kind := k
               magnitude_pct := magnitude_pct }]
          last_pivot_price := some close
          last_index := some i }

/-- `detect_reversals` from `reversals.py`. -/
def detect_reversals (candles : List Candle) (min_separation_bars : Nat)
    (min_price_move_pct : ℚ) : List ReversalPoint :=
  let n := candles.length
  if n < 3 then []
  else ((List.range' 1 (n - 2)).foldl
    (detectStep candles min_separation_bars min_price_move_pct)
    { reversals := [], last_pivot_price := none, last_index := none }).reversals

/-! ## validation.py -/

/-- `has_min_unique_datapoints` from `validation.py`: the Python set
`{c.close for c in candles}` has at least `minimum_unique` elements.  Note
the set ranges over *all* candles, synthetic included. -/
def has_min_unique_datapoints (candles : List Candle) (minimum_unique : Nat) : Bool :=
  decide (minimum_unique ≤ ((candles.map (fun c => c.close)).dedup).length)

/-- `validate_candles` from `validation.py`, returning `(ok, reasons)`.
Note the `elif`: `insufficient_unique_prices` is only checked when
`real_count != 0`. -/
def validate_candles (candles : List Candle) (expected_count minimum_unique : Nat) :
    Bool × List String :=
  let real_count := (candles.filter (fun c => !c.synthetic)).length
  let reasons : List String :=
    (if candles.length < expected_count then ["insufficient_candles"] else []) ++
      (if real_count = 0 then ["no_real_candles"]
       else if !(has_min_unique_datapoints candles minimum_unique) then
         ["insufficient_unique_prices"]
       else [])
  (reasons.isEmpty, reasons)

/-- Reading of the specification's validator clause, for comparison with
the code: the number of distinct close prices among *real* (non-synthetic)
candles. -/
def unique_real_close_count (candles : List Candle) : Nat :=
  (((candles.filter (fun c => !c.synthetic)).map (fun c => c.close)).dedup).length

/-! ## bands.py (clustering) -/

/-- `_in_tolerance` from `bands.py`: symmetric tolerance around the
midpoint of `a` and `b`. -/
def _in_tolerance (a b tolerance_pct : ℚ) : Bool :=
  let mid := (a + b) / 2
  let width := mid * tolerance_pct
  decide (|a - b| ≤ width)

/-- The cluster midpoint `(min(prices) + max(prices)) / 2` used by
`_merge_into_cluster`. -/
def clusterMid (cluster : List ReversalPoint) : ℚ :=
  let prices := cluster.map (fun p => p.price)
  (listMin prices + listMax prices) / 2

/-- The first-fit scan of `cluster_reversals`: try `_merge_into_cluster`
on each cluster in order; on success return the updated cluster list
together with the cluster midpoint *at the moment of the merge*. -/
def placeWithMid (tolerance_pct : ℚ) (pt : ReversalPoint) :
    List (List ReversalPoint) → Option (List (List ReversalPoint) × ℚ)
  | [] => none
  | c :: rest =>
    if _in_tolerance pt.price (clusterMid c) tolerance_pct then
      some ((c ++ [pt]) :: rest, clusterMid c)
    else
      match placeWithMid tolerance_pct pt rest with
      | some (cs, m) => some (c :: cs, m)
      | none => none

/-- One iteration of the `for pt in sorted_points` loop of
`cluster_reversals`: merge into the first accepting cluster, else append a
new single-point cluster. -/
def clusterStep (tolerance_pct : ℚ) (clusters : List (List ReversalPoint))
    (pt : ReversalPoint) : List (List ReversalPoint) :=
  match placeWithMid tolerance_pct pt clusters with
  | some (cs, _) => cs
  | none => clusters ++ [[pt]]

/-- The sort key of `cluster_reversals`: Python tuple order on
`(r.price, r.timestamp)`. -/
def priceTimeLe (a b : ReversalPoint) : Bool :=
  decide (a.price < b.price) ||
    (decide (a.price = b.price) && decide (a.timestamp ≤ b.timestamp))

/-- `cluster_reversals` from `bands.py`: sort by `(price, timestamp)`,
first-fit greedy scan, then sort each cluster chronologically. -/
def cluster_reversals (reversals : List ReversalPoint) (tolerance_pct : ℚ) :
    List (List ReversalPoint) :=
  if reversals = [] then []
  else
    let sorted_points := sortBy priceTimeLe reversals
    let clusters := sorted_points.foldl (clusterStep tolerance_pct) []
    clusters.map (fun c => sortBy (fun a b => decide (a.timestamp ≤ b.timestamp)) c)

/-- The first-fit scan instrumented with a log of merge events: for every
point merged into a pre-existing cluster it records
`(point.price, cluster midpoint at the moment of the merge)`. -/
def clusterScanLog (tolerance_pct : ℚ)
    (st : List (List ReversalPoint) × List (ℚ × ℚ)) (pt : ReversalPoint) :
    List (List ReversalPoint) × List (ℚ × ℚ) :=
  match placeWithMid tolerance_pct pt st.1 with
  | some (cs, m) => (cs, st.2 ++ [(pt.price, m)])
  | none => (st.1 ++ [[pt]], st.2)

/-- All merge events of the `cluster_reversals` scan on a given input. -/
def mergeEvents (reversals : List ReversalPoint) (tolerance_pct : ℚ) :
    List (ℚ × ℚ) :=
  ((sortBy priceTimeLe reversals).foldl (clusterScanLog tolerance_pct) ([], [])).2

/-! ## risk_reward.py -/

/-- The `BandType` literal type of `bands.py`. -/
inductive BandType
  | support
  | resistance
deriving DecidableEq, Repr

/-- The `Band` dataclass of `bands.py`. -/
structure Band where
  lower : ℚ
  upper : ℚ
  mid : ℚ
  points : List ReversalPoint
  band_type : BandType
  touch_count : Nat
  avg_bounce_distance : ℚ
  last_touch_ts : Int
  projected_until_ts : Option Int := none
deriving DecidableEq, Repr

/-- The `RRSuggestion` dataclass of `risk_reward.py`.  `rr_ratio = none`
models Python's `float("inf")` (used exactly when `risk = 0`). -/
structure RRSuggestion where
  band_type : BandType
  entry_price : ℚ
  stop_price : ℚ
  take_profit_price : ℚ
  risk : ℚ
  reward : ℚ
  rr_ratio : Option ℚ
  recommended_position_pct : ℚ
  target_band_mid : Option ℚ
deriving DecidableEq, Repr

/-- `_nearest_opposite_band` from `risk_reward.py`: among bands of the
opposite type, the one minimising `|b.mid - band.mid|`; Python's `min`
keeps the first minimum, modelled by the strict-`<` fold. -/
def _nearest_opposite_band (band : Band) (others : List Band) : Option Band :=
  match others.filter (fun b => decide (b.band_type ≠ band.band_type)) with
  | [] => none
  | c :: rest =>
      some (rest.foldl
        (fun best b => if |b.mid - band.mid| < |best.mid - band.mid| then b else best) c)

/-- `compute_rr_suggestions` from `risk_reward.py`.  Bands with no
opposite-type band are skipped (`filterMap`). -/
def compute_rr_suggestions (bands : List Band) (entry_at : String)
    (stop_buffer_pct max_position_pct : ℚ) : List RRSuggestion :=
  bands.filterMap (fun band =>
    match _nearest_opposite_band band bands with
    | none => none
    | some opposite =>
      if band.band_type = BandType.support then
        let entry := if entry_at = "lower" then band.lower else band.mid
        let stop := band.lower * (1 - stop_buffer_pct)
        let take_profit := opposite.mid
        let risk := max 0 (entry - stop)
        let reward := max 0 (take_profit - entry)
        some { band_type := band.band_type
               entry_price := entry
               stop_price := stop
               take_profit_price := take_profit
               risk := risk
               reward := reward
               rr_ratio := if 0 < risk then some (reward / risk) else none
               recommended_position_pct := max_position_pct
               target_band_mid := some opposite.mid }
      else
        let entry := if entry_at = "upper" then band.upper else band.mid
        let stop := band.upper * (1 + stop_buffer_pct)
        let take_profit := opposite.mid
        let risk := max 0 (stop - entry)
        let reward := max 0 (entry - take_profit)
        some { band_type := band.band_type
               entry_price := entry
               stop_price := stop
               take_profit_price := take_profit
               risk := risk
               reward := reward
               rr_ratio := if 0 < risk then some (reward / risk) else none
               recommended_position_pct := max_position_pct
               target_band_mid := some opposite.mid })

/-! ## indicators.py -/

/-- The ratio-based RSI value: `100` if `avg_loss = 0`, else
`100 - 100 / (1 + avg_gain / avg_loss)`. -/
def rsiValue (avg_gain avg_loss : ℚ) : ℚ :=
  if avg_loss = 0 then 100 else 100 - 100 / (1 + avg_gain / avg_loss)

/-- The Wilder-smoothing loop of `_wilder_rsi_from_closes` over the
remaining `(gain, loss)` pairs, carrying the running averages. -/
def wilderLoop (period : Nat) (avg_gain avg_loss : ℚ) :
    List (ℚ × ℚ) → List ℚ
  | [] => []
  | (g, l) :: rest =>
    let ag := (avg_gain * ((period : ℚ) - 1) + g) / (period : ℚ)
    let al := (avg_loss * ((period : ℚ) - 1) + l) / (period : ℚ)
    rsiValue ag al :: wilderLoop period ag al rest

/-- `_wilder_rsi_from_closes` from `indicators.py`: `none` models the
`float('nan')` sentinel for not-yet-defined values. -/
def _wilder_rsi_from_closes (closes : List ℚ) (period : Int) : List (Option ℚ) :=
  let n := closes.length
  if n = 0 ∨ period ≤ 0 ∨ (n : Int) < period + 1 then List.replicate n none
  else
    let p := period.toNat
    let deltas := List.zipWith (fun a b => a - b) closes.tail closes
    let gains := deltas.map (fun d => max d 0)
    let losses := deltas.map (fun d => max (-d) 0)
    let avg_gain := (gains.take p).sum / (p : ℚ)
    let avg_loss := (losses.take p).sum / (p : ℚ)
    List.replicate p none ++
      some (rsiValue avg_gain avg_loss) ::
        (wilderLoop p avg_gain avg_loss ((gains.drop p).zip (losses.drop p))).map some

/-! ## Helper lemmas about the sorting and extremum helpers -/

theorem insertSorted_perm {α : Type} (le : α → α → Bool) (a : α) (l : List α) :
    (insertSorted le a l).Perm (a :: l) := by
  induction l with
  | nil => exact List.Perm.refl _
  | cons b t ih =>
    unfold insertSorted
    by_cases h : le a b
    · rw [if_pos h]
    · rw [if_neg h]
      exact (List.Perm.cons b ih).trans (List.Perm.swap a b t)

theorem sortBy_perm {α : Type} (le : α → α → Bool) (l : List α) :
    (sortBy le l).Perm l := by
  induction l with
  | nil => exact List.Perm.refl _
  | cons a t ih => exact (insertSorted_perm le a (sortBy le t)).trans (List.Perm.cons a ih)

theorem sortBy_length {α : Type} (le : α → α → Bool) (l : List α) :
    (sortBy le l).length = l.length :=
  (sortBy_perm le l).length_eq

theorem sortBy_mem {α : Type} {le : α → α → Bool} {l : List α} {a : α} :
    a ∈ sortBy le l ↔ a ∈ l :=
  (sortBy_perm le l).mem_iff

theorem le_foldl_max (l : List ℚ) : ∀ a : ℚ, a ≤ l.foldl max a := by
  induction l with
  | nil => intro a; simp
  | cons b t ih =>
    intro a
    calc a ≤ max a b := le_max_left a b
    _ ≤ t.foldl max (max a b) := ih (max a b)

theorem mem_le_foldl_max {l : List ℚ} {y : ℚ} (hy : y ∈ l) :
    ∀ a : ℚ, y ≤ l.foldl max a := by
  induction l with
  | nil => cases hy
  | cons b t ih =>
    intro a
    rcases List.mem_cons.mp hy with h | h
    · subst h
      calc y ≤ max a y := le_max_right a y
      _ ≤ t.foldl max (max a y) := le_foldl_max t (max a y)
    · exact ih h (max a b)

theorem listMax_ge {l : List ℚ} {y : ℚ} (hy : y ∈ l) : y ≤ listMax l := by
  cases l with
  | nil => cases hy
  | cons x xs =>
    rcases List.mem_cons.mp hy with h | h
    · subst h; exact le_foldl_max xs y
    · exact mem_le_foldl_max h x

theorem foldl_min_le (l : List ℚ) : ∀ a : ℚ, l.foldl min a ≤ a := by
  induction l with
  | nil => intro a; simp
  | cons b t ih =>
    intro a
    calc t.foldl min (min a b) ≤ min a b := ih (min a b)
    _ ≤ a := min_le_left a b

theorem foldl_min_le_mem {l : List ℚ} {y : ℚ} (hy : y ∈ l) :
    ∀ a : ℚ, l.foldl min a ≤ y := by
  induction l with
  | nil => cases hy
  | cons b t ih =>
    intro a
    rcases List.mem_cons.mp hy with h | h
    · subst h
      calc t.foldl min (min a y) ≤ min a y := foldl_min_le t (min a y)
      _ ≤ y := min_le_right a y
    · exact ih h (min a b)

theorem listMin_le {l : List ℚ} {y : ℚ} (hy : y ∈ l) : listMin l ≤ y := by
  cases l with
  | nil => cases hy
  | cons x xs =>
    rcases List.mem_cons.mp hy with h | h
    · subst h; exact foldl_min_le xs y
    · exact foldl_min_le_mem h x

theorem headD_mem {α : Type} {l : List α} (h : l ≠ []) (d : α) : l.headD d ∈ l := by
  cases l with
  | nil => exact absurd rfl h
  | cons x xs => exact List.mem_cons_self x xs

theorem getLastD_mem {α : Type} : ∀ (l : List α), l ≠ [] → ∀ d : α, l.getLastD d ∈ l
  | [], h => absurd rfl h
  | [x], _ => by intro d; simp [List.getLastD]
  | x :: y :: t, _ => by
    intro d
    have h := List.mem_cons_of_mem x (getLastD_mem (y :: t) (List.cons_ne_nil y t) x)
    simp only [List.getLastD]
    exact h

/-! ## C8: reversal detection on the zigzag series -/

/-- The contiguous 5-bar series with closes `[100, 105, 95, 110, 90]`. -/
def zigzagCandles : List Candle :=
  [⟨0, 14400, 100, 100, 100, 100, 1, false⟩,
   ⟨14400, 28800, 105, 105, 105, 105, 1, false⟩,
   ⟨28800, 43200, 95, 95, 95, 95, 1, false⟩,
   ⟨43200, 57600, 110, 110, 110, 110, 1, false⟩,
   ⟨57600, 72000, 90, 90, 90, 90, 1, false⟩]

/-- C8: on the 5-bar series with closes `[100, 105, 95, 110, 90]`,
`detect_reversals` with `min_separation_bars = 1` and
`min_price_move_pct = 0` returns exactly three reversal points, at the
interior indices 1, 2 and 3, with kinds peak, trough, peak. -/
theorem detect_reversals_zigzag :
    (detect_reversals zigzagCandles 1 0).map (fun p => (p.index, p.kind)) =
      [(1, ReversalKind.peak), (2, ReversalKind.trough), (3, ReversalKind.peak)] := by
  with_unfolding_all decide

/-! ## C7: RSI on insufficient data -/

/-- C7: whenever the closes series has fewer than `period + 1` elements,
`_wilder_rsi_from_closes` returns one value per input position and every
value is the undefined sentinel (`none`, modelling `float('nan')`); in
particular it never fails. -/
theorem rsi_insufficient_data_all_undefined (closes : List ℚ) (period : Int)
    (h : (closes.length : Int) < period + 1) :
    _wilder_rsi_from_closes closes period = List.replicate closes.length none := by
  simp only [_wilder_rsi_from_closes]
  rw [if_pos (Or.inr (Or.inr h))]

/-- Witness for `rsi_insufficient_data_all_undefined` at the concrete
input `closes = [1, 2]`, `period = 14`. -/
theorem rsi_insufficient_data_all_undefined_witness :
    ((([1, 2] : List ℚ).length : Int) < 14 + 1) ∧
      _wilder_rsi_from_closes [1, 2] 14 = List.replicate ([1, 2] : List ℚ).length none :=
  ⟨by decide, rsi_insufficient_data_all_undefined [1, 2] 14 (by decide)⟩

/-! ## C3: degenerate aggregation window -/

/-- C3 counterexample: on a window with `end_time ≤ start_time` the
aggregator does not fail — no `InvalidWindow` error exists anywhere in the
code — it returns the empty candle list (the window filter discards every
update). -/
theorem degenerate_window_no_error_counterexample :
    aggregate_updates_to_4h_candles [⟨60, 1000, -2⟩] 100 50 = [] := by
  decide

/-- C3 (corrected): for every update sequence and every window with
`end_time ≤ start_time`, aggregation returns the empty list (every update
is discarded by the half-open window filter); no error is raised. -/
theorem degenerate_window_returns_empty (updates : List PUpdate)
    (start_time end_time : Int) (h : end_time ≤ start_time) :
    aggregate_updates_to_4h_candles updates start_time end_time = [] := by
  unfold aggregate_updates_to_4h_candles
  have hf : updates.filter (inWindow start_time end_time) = [] := by
    rw [List.filter_eq_nil_iff]
    intro u _
    simp only [inWindow, Bool.and_eq_true, decide_eq_true_eq, not_and]
    omega
  simp [hf, sortBy]

/-- Witness for `degenerate_window_returns_empty` at a concrete degenerate
window. -/
theorem degenerate_window_returns_empty_witness :
    ((50 : Int) ≤ 100) ∧
      aggregate_updates_to_4h_candles [⟨60, 1000, -2⟩] 100 50 = [] :=
  ⟨by decide, degenerate_window_returns_empty [⟨60, 1000, -2⟩] 100 50 (by decide)⟩

/-! ## C2: the insufficient_unique_prices reason -/

/-- C2 counterexample: a series consisting of one synthetic candle, with
`expected_count = minimum_unique = 1`.  The number of distinct close
prices among real candles is 0 < 1, so by the claim
`insufficient_unique_prices` should be reported (simultaneously with the
zero-real-bars reason) — but the validator reports only `no_real_candles`:
the `elif` makes the two reasons mutually exclusive. -/
theorem insufficient_unique_prices_spec_counterexample :
    validate_candles [⟨0, 14400, 100, 100, 100, 100, 0, true⟩] 1 1 =
      (false, ["no_real_candles"]) ∧
    unique_real_close_count [⟨0, 14400, 100, 100, 100, 100, 0, true⟩] < 1 ∧
    "insufficient_unique_prices" ∉
      (validate_candles [⟨0, 14400, 100, 100, 100, 100, 0, true⟩] 1 1).2 := by
  decide

/-- C2 (corrected): `insufficient_unique_prices` is reported iff there is
at least one real (non-synthetic) candle and the number of distinct close
prices among *all* candles (synthetic included) is fewer than
`minimum_unique`; consequently it is never reported together with
`no_real_candles` (it can still co-occur with `insufficient_candles`). -/
theorem insufficient_unique_prices_reason_iff (candles : List Candle)
    (expected_count minimum_unique : Nat) :
    ("insufficient_unique_prices" ∈ (validate_candles candles expected_count minimum_unique).2 ↔
      0 < (candles.filter (fun c => !c.synthetic)).length ∧
        ((candles.map (fun c => c.close)).dedup).length < minimum_unique) ∧
    ¬("insufficient_unique_prices" ∈ (validate_candles candles expected_count minimum_unique).2 ∧
      "no_real_candles" ∈ (validate_candles candles expected_count minimum_unique).2) := by
  simp only [validate_candles, has_min_unique_datapoints]
  by_cases h1 : candles.length < expected_count <;>
    by_cases h2 : (candles.filter (fun c => !c.synthetic)).length = 0 <;>
      by_cases h3 : minimum_unique ≤ ((candles.map (fun c => c.close)).dedup).length <;>
        simp [h1, h2, h3, List.mem_append] <;> omega

/-! ## C1 and C9: clustering lemmas -/

theorem placeWithMid_some_inTol (tolerance_pct : ℚ) (pt : ReversalPoint) :
    ∀ (cs : List (List ReversalPoint)) {cs2 : List (List ReversalPoint)} {m : ℚ},
      placeWithMid tolerance_pct pt cs = some (cs2, m) →
      _in_tolerance pt.price m tolerance_pct = true := by
  intro cs
  induction cs with
  | nil => intro cs2 m h; simp [placeWithMid] at h
  | cons c rest ih =>
    intro cs2 m h
    unfold placeWithMid at h
    by_cases hc : _in_tolerance pt.price (clusterMid c) tolerance_pct
    · rw [if_pos hc] at h
      simp only [Option.some.injEq, Prod.mk.injEq] at h
      rw [← h.2]
      exact hc
    · rw [if_neg hc] at h
      cases hrec : placeWithMid tolerance_pct pt rest with
      | none => rw [hrec] at h; cases h
      | some pr =>
        rw [hrec] at h
        cases pr with
        | mk cs3 m3 =>
          simp only [Option.some.injEq, Prod.mk.injEq] at h
          rw [← h.2]
          exact ih hrec

theorem clusterScanLog_events_sound (tolerance_pct : ℚ) :
    ∀ (l : List ReversalPoint) (st : List (List ReversalPoint) × List (ℚ × ℚ)),
      (∀ e ∈ st.2, _in_tolerance e.1 e.2 tolerance_pct = true) →
      ∀ e ∈ (l.foldl (clusterScanLog tolerance_pct) st).2,
        _in_tolerance e.1 e.2 tolerance_pct = true := by
  intro l
  induction l with
  | nil => intro st hst e he; exact hst e he
  | cons pt rest ih =>
    intro st hst e he
    refine ih (clusterScanLog tolerance_pct st pt) ?_ e he
    intro e2 he2
    unfold clusterScanLog at he2
    cases hp : placeWithMid tolerance_pct pt st.1 with
    | none => rw [hp] at he2; exact hst e2 he2
    | some pr =>
      cases pr with
      | mk cs m =>
        rw [hp] at he2
        simp only [List.mem_append, List.mem_singleton] at he2
        rcases he2 with h | h
        · exact hst e2 h
        · subst h; exact placeWithMid_some_inTol tolerance_pct pt st.1 hp

theorem clusterScanLog_fst (tolerance_pct : ℚ) :
    ∀ (l : List ReversalPoint) (st : List (List ReversalPoint) × List (ℚ × ℚ)),
      (l.foldl (clusterScanLog tolerance_pct) st).1 =
        l.foldl (clusterStep tolerance_pct) st.1 := by
  intro l
  induction l with
  | nil => intro st; rfl
  | cons pt rest ih =>
    intro st
    rw [List.foldl_cons, List.foldl_cons, ih]
    congr 1
    unfold clusterScanLog clusterStep
    cases hp : placeWithMid tolerance_pct pt st.1 with
    | none => simp [hp]
    | some pr => cases pr; simp [hp]

theorem mergeEvents_in_tolerance (reversals : List ReversalPoint) (tolerance_pct : ℚ)
    (e : ℚ × ℚ) (he : e ∈ mergeEvents reversals tolerance_pct) :
    _in_tolerance e.1 e.2 tolerance_pct = true := by
  unfold mergeEvents at he
  exact clusterScanLog_events_sound tolerance_pct _ ([], []) (by intro x hx; cases hx) e he

/-- Concrete reversal point at price 100. -/
def ptLow : ReversalPoint := ⟨0, 0, 100, ReversalKind.peak, 0⟩

/-- Concrete reversal point at price 110.2. -/
def ptHigh : ReversalPoint := ⟨1, 14400, 551 / 5, ReversalKind.trough, 0⟩

/-- Concrete reversal point at price 100.3. -/
def ptNear : ReversalPoint := ⟨1, 14400, 1003 / 10, ReversalKind.trough, 0⟩

/-- C1 counterexample: with `tolerance_pct = 1/10` the point at price
110.2 is merged into the pre-existing cluster `[ptLow]` whose midpoint is
100 (the merge event is recorded), yet the spec condition
`|price − cluster_mid| ≤ cluster_mid × tolerance_pct` fails there:
`10.2 ≤ 10` is false.  The code's `_in_tolerance` measures the width at
the midpoint of the two prices, not at the cluster midpoint. -/
theorem cluster_merge_spec_tolerance_counterexample :
    mergeEvents [ptLow, ptHigh] (1 / 10) = [(551 / 5, 100)] ∧
    (cluster_reversals [ptLow, ptHigh] (1 / 10)).map List.length = [2] ∧
    ¬(|(551 / 5 : ℚ) - 100| ≤ 100 * (1 / 10)) := by
  with_unfolding_all decide

/-- C1 (corrected): at the moment `cluster_reversals` merges a point into
an existing cluster (recorded as a merge event `(point.price, cluster_mid)`
with `cluster_mid` taken immediately before the merge), the condition that
holds is `|point.price − cluster_mid| ≤ ((point.price + cluster_mid)/2) ×
tolerance_pct`: the tolerance width is computed around the midpoint of the
point's price and the cluster midpoint, not around the cluster midpoint
alone. -/
theorem cluster_merge_uses_symmetric_tolerance (reversals : List ReversalPoint)
    (tolerance_pct : ℚ) (e : ℚ × ℚ) (he : e ∈ mergeEvents reversals tolerance_pct) :
    |e.1 - e.2| ≤ ((e.1 + e.2) / 2) * tolerance_pct := by
  have h := mergeEvents_in_tolerance reversals tolerance_pct e he
  simp only [_in_tolerance] at h
  exact of_decide_eq_true h

/-- Witness for `cluster_merge_uses_symmetric_tolerance` on a concrete
merge: with `tolerance_pct = 1/200` the point at 100.3 merges into the
cluster at midpoint 100. -/
theorem cluster_merge_uses_symmetric_tolerance_witness :
    ((1003 / 10, 100) : ℚ × ℚ) ∈ mergeEvents [ptLow, ptNear] (1 / 200) ∧
    |(1003 / 10 : ℚ) - 100| ≤ (((1003 / 10 : ℚ) + 100) / 2) * (1 / 200) :=
  ⟨by with_unfolding_all decide,
   cluster_merge_uses_symmetric_tolerance [ptLow, ptNear] (1 / 200) (1003 / 10, 100)
     (by with_unfolding_all decide)⟩

theorem placeWithMid_flatten (tolerance_pct : ℚ) (pt : ReversalPoint) :
    ∀ (cs : List (List ReversalPoint)) {cs2 : List (List ReversalPoint)} {m : ℚ},
      placeWithMid tolerance_pct pt cs = some (cs2, m) →
      cs2.flatten.Perm (pt :: cs.flatten) := by
  intro cs
  induction cs with
  | nil => intro cs2 m h; simp [placeWithMid] at h
  | cons c rest ih =>
    intro cs2 m h
    unfold placeWithMid at h
    by_cases hc : _in_tolerance pt.price (clusterMid c) tolerance_pct
    · rw [if_pos hc] at h
      simp only [Option.some.injEq, Prod.mk.injEq] at h
      rw [← h.1]
      simp only [List.flatten_cons, List.append_assoc, List.singleton_append]
      exact List.perm_middle
    · rw [if_neg hc] at h
      cases hrec : placeWithMid tolerance_pct pt rest with
      | none => rw [hrec] at h; cases h
      | some pr =>
        rw [hrec] at h
        cases pr with
        | mk cs3 m3 =>
          simp only [Option.some.injEq, Prod.mk.injEq] at h
          rw [← h.1]
          simp only [List.flatten_cons]
          exact (List.Perm.append_left c (ih hrec)).trans List.perm_middle

theorem clusterStep_flatten (tolerance_pct : ℚ) (cs : List (List ReversalPoint))
    (pt : ReversalPoint) :
    (clusterStep tolerance_pct cs pt).flatten.Perm (pt :: cs.flatten) := by
  unfold clusterStep
  cases hp : placeWithMid tolerance_pct pt cs with
  | none =>
    have h1 : (cs ++ [[pt]]).flatten = cs.flatten ++ [pt] := by
      simp [List.flatten_append]
    rw [h1]
    have h2 : List.Perm (cs.flatten ++ pt :: ([] : List ReversalPoint))
        (pt :: (cs.flatten ++ [])) := List.perm_middle
    rw [List.append_nil] at h2
    exact h2
  | some pr =>
    cases pr with
    | mk cs2 m => exact placeWithMid_flatten tolerance_pct pt cs hp

theorem foldl_clusterStep_flatten (tolerance_pct : ℚ) :
    ∀ (l : List ReversalPoint) (cs : List (List ReversalPoint)),
      ((l.foldl (clusterStep tolerance_pct) cs).flatten).Perm (cs.flatten ++ l) := by
  intro l
  induction l with
  | nil => intro cs; simp
  | cons a rest ih =>
    intro cs
    rw [List.foldl_cons]
    refine (ih (clusterStep tolerance_pct cs a)).trans ?_
    refine (List.Perm.append_right rest (clusterStep_flatten tolerance_pct cs a)).trans ?_
    exact List.perm_middle.symm

theorem placeWithMid_nonempty (tolerance_pct : ℚ) (pt : ReversalPoint) :
    ∀ (cs : List (List ReversalPoint)) {cs2 : List (List ReversalPoint)} {m : ℚ},
      placeWithMid tolerance_pct pt cs = some (cs2, m) →
      (∀ c ∈ cs, c ≠ []) → ∀ c ∈ cs2, c ≠ [] := by
  intro cs
  induction cs with
  | nil => intro cs2 m h; simp [placeWithMid] at h
  | cons c rest ih =>
    intro cs2 m h hne
    unfold placeWithMid at h
    by_cases hc : _in_tolerance pt.price (clusterMid c) tolerance_pct
    · rw [if_pos hc] at h
      simp only [Option.some.injEq, Prod.mk.injEq] at h
      rw [← h.1]
      intro c2 hc2
      rcases List.mem_cons.mp hc2 with h2 | h2
      · subst h2; simp
      · exact hne c2 (List.mem_cons_of_mem c h2)
    · rw [if_neg hc] at h
      cases hrec : placeWithMid tolerance_pct pt rest with
      | none => rw [hrec] at h; cases h
      | some pr =>
        rw [hrec] at h
        cases pr with
        | mk cs3 m3 =>
          simp only [Option.some.injEq, Prod.mk.injEq] at h
          rw [← h.1]
          intro c2 hc2
          rcases List.mem_cons.mp hc2 with h2 | h2
          · rw [h2]; exact hne c (List.mem_cons_self c rest)
          · exact ih hrec (fun x hx => hne x (List.mem_cons_of_mem c hx)) c2 h2

theorem foldl_clusterStep_nonempty (tolerance_pct : ℚ) :
    ∀ (l : List ReversalPoint) (cs : List (List ReversalPoint)),
      (∀ c ∈ cs, c ≠ []) →
      ∀ c ∈ l.foldl (clusterStep tolerance_pct) cs, c ≠ [] := by
  intro l
  induction l with
  | nil => intro cs h; exact h
  | cons a rest ih =>
    intro cs h
    rw [List.foldl_cons]
    refine ih (clusterStep tolerance_pct cs a) ?_
    unfold clusterStep
    cases hp : placeWithMid tolerance_pct a cs with
    | none =>
      intro c hc
      rcases List.mem_append.mp hc with h2 | h2
      · exact h c h2
      · rw [List.mem_singleton.mp h2]; exact List.cons_ne_nil a []
    | some pr =>
      cases pr with
      | mk cs2 m => exact placeWithMid_nonempty tolerance_pct a cs hp h

theorem flatten_map_sortBy_perm {α : Type} (le : α → α → Bool) :
    ∀ cs : List (List α), ((cs.map (sortBy le)).flatten).Perm cs.flatten := by
  intro cs
  induction cs with
  | nil => simp
  | cons c rest ih =>
    simp only [List.map_cons, List.flatten_cons]
    exact List.Perm.append (sortBy_perm le c) ih

/-- C9: the clusters returned by `cluster_reversals` partition the input:
the concatenation of all clusters is a permutation of the input list (so
every input point occurs in exactly one cluster, counted with
multiplicity), no cluster is empty, and the cluster sizes sum to the
length of the input. -/
theorem cluster_reversals_partition (reversals : List ReversalPoint) (tolerance_pct : ℚ) :
    ((cluster_reversals reversals tolerance_pct).flatten).Perm reversals ∧
    (∀ c ∈ cluster_reversals reversals tolerance_pct, c ≠ []) ∧
    ((cluster_reversals reversals tolerance_pct).map List.length).sum = reversals.length := by
  by_cases hr : reversals = []
  · subst hr; simp [cluster_reversals]
  · have hperm : ((cluster_reversals reversals tolerance_pct).flatten).Perm reversals := by
      unfold cluster_reversals
      rw [if_neg hr]
      refine (flatten_map_sortBy_perm _ _).trans ?_
      refine (foldl_clusterStep_flatten tolerance_pct (sortBy priceTimeLe reversals) []).trans ?_
      simpa using sortBy_perm priceTimeLe reversals
    refine ⟨hperm, ?_, ?_⟩
    · unfold cluster_reversals
      rw [if_neg hr]
      intro c hc
      rcases List.mem_map.mp hc with ⟨c0, hc0, hceq⟩
      have hne0 : c0 ≠ [] :=
        foldl_clusterStep_nonempty tolerance_pct (sortBy priceTimeLe reversals) []
          (by intro x hx; cases hx) c0 hc0
      subst hceq
      intro hnil
      exact hne0 (List.length_eq_zero.mp
        (by rw [← sortBy_length (fun a b => decide (a.timestamp ≤ b.timestamp)) c0, hnil]; rfl))
    · rw [← List.length_flatten]
      exact hperm.length_eq

/-! ## C4 and C10: risk/reward suggestions -/

theorem rr_ratio_nonneg_of (r w : ℚ) (hw : 0 ≤ w) :
    ∀ q : ℚ, (if 0 < r then some (w / r) else none) = some q → 0 ≤ q := by
  intro q hq
  split at hq
  · rw [Option.some.injEq] at hq
    rw [← hq]
    exact div_nonneg hw (le_of_lt (by assumption))
  · cases hq

/-- A concrete support band whose mid (100) lies *above* the mid (50) of
the only resistance band: the raw reward `target − entry` is negative. -/
def bandS : Band := ⟨90, 110, 100, [], BandType.support, 3, 0, 0, none⟩

/-- A concrete resistance band below `bandS`. -/
def bandR : Band := ⟨40, 60, 50, [], BandType.resistance, 3, 0, 0, none⟩

/-- The suggestion `compute_rr_suggestions` emits for `bandS` (reward
clamped to 0). -/
def sugS : RRSuggestion := ⟨BandType.support, 100, 90, 50, 10, 0, some 0, 1 / 4, some 50⟩

/-- The suggestion `compute_rr_suggestions` emits for `bandR` (reward
clamped to 0). -/
def sugR : RRSuggestion := ⟨BandType.resistance, 50, 60, 100, 10, 0, some 0, 1 / 4, some 100⟩

/-- C4 counterexample: on the band list `[bandS, bandR]` with zero stop
buffer and default entry, the support suggestion has `reward = 0`, not
`take_profit − entry = 50 − 100 = −50` as the claim's formula demands:
the code clamps `risk` and `reward` at zero with `max(0.0, ·)`. -/
theorem rr_suggestion_unclamped_counterexample :
    compute_rr_suggestions [bandS, bandR] "mid" 0 (1 / 4) = [sugS, sugR] ∧
    ¬(sugS.reward = sugS.take_profit_price - sugS.entry_price) := by
  with_unfolding_all decide

/-- C4 (corrected): every suggestion emitted by `compute_rr_suggestions`
(with the default entry preference `"mid"`) comes from a band `b` and its
nearest opposite-type band `o` and satisfies the spec formulas *with
clamping*: for support, `entry = b.mid`, `stop = b.lower×(1−buffer)`,
`take_profit = o.mid`, `risk = max 0 (entry − stop)`,
`reward = max 0 (take_profit − entry)`; mirrored for resistance; and
`rr_ratio = reward / risk` when `risk > 0`, the infinity sentinel (`none`)
exactly when `risk = 0`. -/
theorem rr_suggestion_formulas_clamped (bands : List Band)
    (stop_buffer_pct max_position_pct : ℚ) (s : RRSuggestion)
    (hs : s ∈ compute_rr_suggestions bands "mid" stop_buffer_pct max_position_pct) :
    ∃ b, b ∈ bands ∧ ∃ o, _nearest_opposite_band b bands = some o ∧
      s.band_type = b.band_type ∧
      s.take_profit_price = o.mid ∧
      s.target_band_mid = some o.mid ∧
      (b.band_type = BandType.support →
        s.entry_price = b.mid ∧ s.stop_price = b.lower * (1 - stop_buffer_pct) ∧
        s.risk = max 0 (s.entry_price - s.stop_price) ∧
        s.reward = max 0 (s.take_profit_price - s.entry_price)) ∧
      (b.band_type = BandType.resistance →
        s.entry_price = b.mid ∧ s.stop_price = b.upper * (1 + stop_buffer_pct) ∧
        s.risk = max 0 (s.stop_price - s.entry_price) ∧
        s.reward = max 0 (s.entry_price - s.take_profit_price)) ∧
      (0 < s.risk → s.rr_ratio = some (s.reward / s.risk)) ∧
      (s.risk = 0 → s.rr_ratio = none) := by
  rcases List.mem_filterMap.mp hs with ⟨b, hb, hf⟩
  cases hno : _nearest_opposite_band b bands with
  | none => rw [hno] at hf; cases hf
  | some o =>
    rw [hno] at hf
    dsimp only at hf
    refine ⟨b, hb, o, hno, ?_⟩
    by_cases hty : b.band_type = BandType.support
    · rw [if_pos hty] at hf
      simp only [Option.some.injEq] at hf
      subst hf
      dsimp only
      refine ⟨rfl, rfl, rfl, ?_, ?_, ?_, ?_⟩
      · intro _
        refine ⟨?_, rfl, rfl, rfl⟩
        simp
      · intro h
        rw [hty] at h
        cases h
      · intro h
        rw [if_pos h]
      · intro h
        rw [if_neg]
        rw [h]
        exact lt_irrefl 0
    · rw [if_neg hty] at hf
      simp only [Option.some.injEq] at hf
      subst hf
      dsimp only
      have hres : b.band_type = BandType.resistance := by
        cases hbt : b.band_type
        · exact absurd hbt hty
        · rfl
      refine ⟨hres.symm ▸ rfl, rfl, rfl, ?_, ?_, ?_, ?_⟩
      · intro h
        exact absurd h hty
      · intro _
        refine ⟨?_, rfl, rfl, rfl⟩
        simp
      · intro h
        rw [if_pos h]
      · intro h
        rw [if_neg]
        rw [h]
        exact lt_irrefl 0

/-- Witness for `rr_suggestion_formulas_clamped` at the concrete band list
`[bandS, bandR]` and the emitted support suggestion. -/
theorem rr_suggestion_formulas_clamped_witness :
    sugS ∈ compute_rr_suggestions [bandS, bandR] "mid" 0 (1 / 4) ∧
    (∃ b, b ∈ [bandS, bandR] ∧ ∃ o, _nearest_opposite_band b [bandS, bandR] = some o ∧
      sugS.band_type = b.band_type ∧
      sugS.take_profit_price = o.mid ∧
      sugS.target_band_mid = some o.mid ∧
      (b.band_type = BandType.support →
        sugS.entry_price = b.mid ∧ sugS.stop_price = b.lower * (1 - 0) ∧
        sugS.risk = max 0 (sugS.entry_price - sugS.stop_price) ∧
        sugS.reward = max 0 (sugS.take_profit_price - sugS.entry_price)) ∧
      (b.band_type = BandType.resistance →
        sugS.entry_price = b.mid ∧ sugS.stop_price = b.upper * (1 + 0) ∧
        sugS.risk = max 0 (sugS.stop_price - sugS.entry_price) ∧
        sugS.reward = max 0 (sugS.entry_price - sugS.take_profit_price)) ∧
      (0 < sugS.risk → sugS.rr_ratio = some (sugS.reward / sugS.risk)) ∧
      (sugS.risk = 0 → sugS.rr_ratio = none)) :=
  ⟨by with_unfolding_all decide,
   rr_suggestion_formulas_clamped [bandS, bandR] 0 (1 / 4) sugS
     (by with_unfolding_all decide)⟩

/-- C10: every suggestion emitted by `compute_rr_suggestions` (for any
entry preference, buffer and position size) has `risk ≥ 0` and
`reward ≥ 0` (both clamped at zero), and whenever `rr_ratio` is a finite
value it is nonnegative. -/
theorem rr_risk_reward_nonneg (bands : List Band) (entry_at : String)
    (stop_buffer_pct max_position_pct : ℚ) (s : RRSuggestion)
    (hs : s ∈ compute_rr_suggestions bands entry_at stop_buffer_pct max_position_pct) :
    0 ≤ s.risk ∧ 0 ≤ s.reward ∧ ∀ q, s.rr_ratio = some q → 0 ≤ q := by
  rcases List.mem_filterMap.mp hs with ⟨b, hb, hf⟩
  cases hno : _nearest_opposite_band b bands with
  | none => rw [hno] at hf; cases hf
  | some o =>
    rw [hno] at hf
    dsimp only at hf
    by_cases hty : b.band_type = BandType.support
    · rw [if_pos hty] at hf
      simp only [Option.some.injEq] at hf
      subst hf
      exact ⟨le_max_left 0 _, le_max_left 0 _, rr_ratio_nonneg_of _ _ (le_max_left 0 _)⟩
    · rw [if_neg hty] at hf
      simp only [Option.some.injEq] at hf
      subst hf
      exact ⟨le_max_left 0 _, le_max_left 0 _, rr_ratio_nonneg_of _ _ (le_max_left 0 _)⟩

/-- Witness for `rr_risk_reward_nonneg` at the concrete band list
`[bandS, bandR]`. -/
theorem rr_risk_reward_nonneg_witness :
    sugS ∈ compute_rr_suggestions [bandS, bandR] "mid" 0 (1 / 4) ∧
    (0 ≤ sugS.risk ∧ 0 ≤ sugS.reward ∧ ∀ q, sugS.rr_ratio = some q → 0 ≤ q) :=
  ⟨by with_unfolding_all decide,
   rr_risk_reward_nonneg [bandS, bandR] "mid" 0 (1 / 4) sugS
     (by with_unfolding_all decide)⟩

/-! ## C6: aggregation bar bounds and sample count -/

/-- C6: every bar produced by the aggregator satisfies
`high ≥ max(open, close)` and `low ≤ min(open, close)`, and its sample
count equals the number of in-window updates whose bucket key
(`_window_bounds(publish_time).1`) is the bar's `start_time`. -/
theorem aggregate_bar_bounds_and_count (updates : List PUpdate)
    (start_time end_time : Int) (c : Candle)
    (hc : c ∈ aggregate_updates_to_4h_candles updates start_time end_time) :
    max c.open_ c.close ≤ c.high ∧ c.low ≤ min c.open_ c.close ∧
    c.count = (updates.filter (fun u =>
        decide ((_window_bounds u.publish_time).1 = c.start_time) &&
          inWindow start_time end_time u)).length := by
  unfold aggregate_updates_to_4h_candles at hc
  dsimp only at hc
  rcases List.mem_map.mp hc with ⟨k, hk, hck⟩
  have hkd := List.mem_dedup.mp (sortBy_mem.mp hk)
  rcases List.mem_map.mp hkd with ⟨u, huF, huk⟩
  subst hck
  dsimp only
  have huFk : u ∈ (updates.filter (inWindow start_time end_time)).filter
      (fun u => decide ((_window_bounds u.publish_time).1 = k)) := by
    rw [List.mem_filter]
    exact ⟨huF, by rw [huk]; exact decide_eq_true rfl⟩
  have hfilne : ((updates.filter (inWindow start_time end_time)).filter
      (fun u => decide ((_window_bounds u.publish_time).1 = k))) ≠ [] :=
    List.ne_nil_of_mem huFk
  have hentne : (sortBy (fun a b => decide (a.publish_time ≤ b.publish_time))
      ((updates.filter (inWindow start_time end_time)).filter
        (fun u => decide ((_window_bounds u.publish_time).1 = k)))) ≠ [] := by
    intro h
    apply hfilne
    have hlen := sortBy_length (fun a b => decide (a.publish_time ≤ b.publish_time))
      ((updates.filter (inWindow start_time end_time)).filter
        (fun u => decide ((_window_bounds u.publish_time).1 = k)))
    rw [h] at hlen
    exact List.length_eq_zero.mp hlen.symm
  have hprine : ((sortBy (fun a b => decide (a.publish_time ≤ b.publish_time))
      ((updates.filter (inWindow start_time end_time)).filter
        (fun u => decide ((_window_bounds u.publish_time).1 = k)))).map
      (fun u => _to_float_price u.price u.expo)) ≠ [] := by
    intro h
    exact hentne (List.map_eq_nil_iff.mp h)
  refine ⟨?_, ?_, ?_⟩
  · exact max_le (listMax_ge (headD_mem hprine 0)) (listMax_ge (getLastD_mem _ hprine 0))
  · exact le_min (listMin_le (headD_mem hprine 0)) (listMin_le (getLastD_mem _ hprine 0))
  · rw [List.length_map, sortBy_length, List.filter_filter]

/-- Two concrete in-window Pyth updates. -/
def updatesExample : List PUpdate :=
  [⟨10, 1000, -2⟩, ⟨100, 1200, -2⟩]

/-- The bar the aggregator produces from `updatesExample` on `[0, 14400)`. -/
def candleExample : Candle := ⟨0, 14400, 10, 12, 10, 12, 2, false⟩

theorem aggregate_example_eval :
    aggregate_updates_to_4h_candles updatesExample 0 14400 = [candleExample] := by
  norm_num [aggregate_updates_to_4h_candles, updatesExample, candleExample, inWindow,
    _window_bounds, _to_float_price, pow10, sortBy, insertSorted, listMax, listMin,
    FOUR_HOURS_SECONDS, List.dedup_cons_of_not_mem, List.filter, max_def, min_def,
    Int.fdiv]

/-- Witness for `aggregate_bar_bounds_and_count` on the concrete update
list `updatesExample`. -/
theorem aggregate_bar_bounds_and_count_witness :
    candleExample ∈ aggregate_updates_to_4h_candles updatesExample 0 14400 ∧
    (max candleExample.open_ candleExample.close ≤ candleExample.high ∧
      candleExample.low ≤ min candleExample.open_ candleExample.close ∧
      candleExample.count = (updatesExample.filter (fun u =>
        decide ((_window_bounds u.publish_time).1 = candleExample.start_time) &&
          inWindow 0 14400 u)).length) :=
  ⟨by rw [aggregate_example_eval]; exact List.mem_singleton.mpr rfl,
   aggregate_bar_bounds_and_count updatesExample 0 14400 candleExample
     (by rw [aggregate_example_eval]; exact List.mem_singleton.mpr rfl)⟩

/-! ## C5: backfill contiguity and synthetic-close inheritance -/

theorem by_start_lookup_spec {candles : List Candle} {k : Int} {c : Candle}
    (h : by_start_lookup candles k = some c) : c.start_time = k ∧ c ∈ candles := by
  unfold by_start_lookup at h
  have h1 := List.find?_some h
  simp only [decide_eq_true_eq] at h1
  exact ⟨h1, List.mem_reverse.mp (List.mem_of_find?_eq_some h)⟩

theorem backfillLoop_succ (candles : List Candle) (end_time : Int)
    (k : Nat) (cursor : Int) (lc : Option ℚ) :
    backfillLoop candles end_time (k + 1) cursor lc =
      if cursor < end_time then
        match by_start_lookup candles cursor with
        | some existing =>
            existing ::
              backfillLoop candles end_time k (cursor + FOUR_HOURS_SECONDS) (some existing.close)
        | none =>
          match lc with
          | some v =>
              mkSyntheticCandle cursor v ::
                backfillLoop candles end_time k (cursor + FOUR_HOURS_SECONDS) (some v)
          | none =>
            match seed_open candles with
            | some so =>
                mkSyntheticCandle cursor so ::
                  backfillLoop candles end_time k (cursor + FOUR_HOURS_SECONDS) (some so)
            | none => backfillLoop candles end_time k (cursor + FOUR_HOURS_SECONDS) none
      else [] := rfl

theorem backfillLoop_stop (candles : List Candle) (end_time : Int) :
    ∀ (fuel : Nat) (cursor : Int) (lc : Option ℚ), ¬cursor < end_time →
      backfillLoop candles end_time fuel cursor lc = [] := by
  intro fuel cursor lc h
  cases fuel with
  | zero => rfl
  | succ k => rw [backfillLoop_succ, if_neg h]

/-- The pairwise relation of C5: the next bar starts where the previous
one ends, and a synthetic bar copies the previous bar's close into all
four of its price fields. -/
def ContiguousStep (a b : Candle) : Prop :=
  b.start_time = a.end_time ∧
  (b.synthetic = true → b.open_ = a.close ∧ b.high = a.close ∧ b.low = a.close ∧ b.close = a.close)

theorem backfillLoop_cons (candles : List Candle) (end_time : Int)
    (hwf : ∀ c ∈ candles, c.end_time = c.start_time + FOUR_HOURS_SECONDS)
    (hreal : ∀ c ∈ candles, c.synthetic = false)
    (k : Nat) (cursor : Int) (v : ℚ) (hce : cursor < end_time) :
    ∃ b, backfillLoop candles end_time (k + 1) cursor (some v) =
        b :: backfillLoop candles end_time k (cursor + FOUR_HOURS_SECONDS) (some b.close) ∧
      b.start_time = cursor ∧ b.end_time = cursor + FOUR_HOURS_SECONDS ∧
      (b.synthetic = true → b.open_ = v ∧ b.high = v ∧ b.low = v ∧ b.close = v) := by
  rw [backfillLoop_succ, if_pos hce]
  cases hfind : by_start_lookup candles cursor with
  | some c =>
    rcases by_start_lookup_spec hfind with ⟨hcs, hcm⟩
    refine ⟨c, rfl, hcs, ?_, ?_⟩
    · rw [hwf c hcm, hcs]
    · intro hsyn
      rw [hreal c hcm] at hsyn
      cases hsyn
  | none =>
    exact ⟨mkSyntheticCandle cursor v, rfl, rfl, rfl, fun _ => ⟨rfl, rfl, rfl, rfl⟩⟩

theorem backfillLoop_chain (candles : List Candle) (end_time : Int)
    (hwf : ∀ c ∈ candles, c.end_time = c.start_time + FOUR_HOURS_SECONDS)
    (hreal : ∀ c ∈ candles, c.synthetic = false) :
    ∀ (fuel : Nat) (cursor : Int) (lc : Option ℚ),
      List.Chain' ContiguousStep (backfillLoop candles end_time fuel cursor lc) := by
  intro fuel
  induction fuel with
  | zero => intro cursor lc; exact List.chain'_nil
  | succ k ih =>
    intro cursor lc
    by_cases hce : cursor < end_time
    · have hcons : ∀ b : Candle,
          b.end_time = cursor + FOUR_HOURS_SECONDS →
          List.Chain' ContiguousStep
            (b :: backfillLoop candles end_time k (cursor + FOUR_HOURS_SECONDS) (some b.close)) := by
        intro b hbe
        rw [List.chain'_cons']
        refine ⟨?_, ih (cursor + FOUR_HOURS_SECONDS) (some b.close)⟩
        intro y hy
        cases k with
        | zero => simp [backfillLoop] at hy
        | succ k2 =>
          by_cases h2 : cursor + FOUR_HOURS_SECONDS < end_time
          · rcases backfillLoop_cons candles end_time hwf hreal k2
                (cursor + FOUR_HOURS_SECONDS) b.close h2 with ⟨b2, heq, hs2, he2, hsyn2⟩
            rw [heq] at hy
            simp only [List.head?_cons, Option.mem_def, Option.some.injEq] at hy
            subst hy
            exact ⟨by rw [hs2, hbe], hsyn2⟩
          · rw [backfillLoop_stop candles end_time _ _ _ h2] at hy
            simp at hy
      rw [backfillLoop_succ, if_pos hce]
      cases hfind : by_start_lookup candles cursor with
      | some c =>
        rcases by_start_lookup_spec hfind with ⟨hcs, hcm⟩
        exact hcons c (by rw [hwf c hcm, hcs])
      | none =>
        cases lc with
        | some v => exact hcons (mkSyntheticCandle cursor v) rfl
        | none =>
          cases hseed : seed_open candles with
          | some so => exact hcons (mkSyntheticCandle cursor so) rfl
          | none => exact ih (cursor + FOUR_HOURS_SECONDS) none
    · rw [backfillLoop_stop candles end_time _ _ _ hce]
      exact List.chain'_nil

theorem backfillLoop_wf (candles : List Candle) (end_time : Int)
    (hwf : ∀ c ∈ candles, c.end_time = c.start_time + FOUR_HOURS_SECONDS) :
    ∀ (fuel : Nat) (cursor : Int) (lc : Option ℚ) (b : Candle),
      b ∈ backfillLoop candles end_time fuel cursor lc →
      b.end_time = b.start_time + FOUR_HOURS_SECONDS := by
  intro fuel
  induction fuel with
  | zero => intro cursor lc b hb; cases hb
  | succ k ih =>
    intro cursor lc b hb
    by_cases hce : cursor < end_time
    · rw [backfillLoop_succ, if_pos hce] at hb
      split at hb
      · rcases List.mem_cons.mp hb with h | h
        · rcases by_start_lookup_spec (by assumption) with ⟨hcs, hcm⟩
          rw [h]; exact hwf _ hcm
        · exact ih _ _ b h
      · split at hb
        · rcases List.mem_cons.mp hb with h | h
          · rw [h]; rfl
          · exact ih _ _ b h
        · split at hb
          · rcases List.mem_cons.mp hb with h | h
            · rw [h]; rfl
            · exact ih _ _ b h
          · exact ih _ _ b hb
    · rw [backfillLoop_stop candles end_time _ _ _ hce] at hb
      cases hb

/-- C5: for every sparse bar list satisfying the Bar data-model
invariants (`end_time = start_time + W` and non-synthetic, as produced by
the aggregator) and every window, the backfilled series is contiguous and
chronologically monotonic — each output bar's `start_time` equals the
previous output bar's `end_time` and start times strictly increase — and
every synthetic output bar that has a predecessor copies the predecessor's
close into open/high/low/close. -/
theorem backfill_contiguous_and_inherits_close (candles : List Candle) (start_time end_time : Int)
    (hwf : ∀ c ∈ candles, c.end_time = c.start_time + FOUR_HOURS_SECONDS)
    (hreal : ∀ c ∈ candles, c.synthetic = false)
    (i : Nat) (hi : i + 1 < (backfill_missing_candles candles start_time end_time).length) :
    ((backfill_missing_candles candles start_time end_time).getD (i + 1) default).start_time =
      ((backfill_missing_candles candles start_time end_time).getD i default).end_time ∧
    ((backfill_missing_candles candles start_time end_time).getD i default).start_time <
      ((backfill_missing_candles candles start_time end_time).getD (i + 1) default).start_time ∧
    (((backfill_missing_candles candles start_time end_time).getD (i + 1) default).synthetic = true →
      ((backfill_missing_candles candles start_time end_time).getD (i + 1) default).open_ =
        ((backfill_missing_candles candles start_time end_time).getD i default).close ∧
      ((backfill_missing_candles candles start_time end_time).getD (i + 1) default).high =
        ((backfill_missing_candles candles start_time end_time).getD i default).close ∧
      ((backfill_missing_candles candles start_time end_time).getD (i + 1) default).low =
        ((backfill_missing_candles candles start_time end_time).getD i default).close ∧
      ((backfill_missing_candles candles start_time end_time).getD (i + 1) default).close =
        ((backfill_missing_candles candles start_time end_time).getD i default).close) := by
  have hg1 : (backfill_missing_candles candles start_time end_time).getD (i + 1) default =
      (backfill_missing_candles candles start_time end_time).get ⟨i + 1, hi⟩ := by
    rw [List.getD_eq_getElem _ _ hi]
    rfl
  have hg0 : (backfill_missing_candles candles start_time end_time).getD i default =
      (backfill_missing_candles candles start_time end_time).get ⟨i, Nat.lt_of_succ_lt hi⟩ := by
    rw [List.getD_eq_getElem _ _ (Nat.lt_of_succ_lt hi)]
    rfl
  rw [hg0, hg1]
  have hch : List.Chain' ContiguousStep (backfill_missing_candles candles start_time end_time) :=
    backfillLoop_chain candles end_time hwf hreal _ _ _
  have hstep := List.chain'_iff_get.mp hch i (by omega)
  have hmem : (backfill_missing_candles candles start_time end_time).get
      ⟨i, Nat.lt_of_succ_lt hi⟩ ∈ backfill_missing_candles candles start_time end_time :=
    List.get_mem _ _ _
  have hwfi := backfillLoop_wf candles end_time hwf _ _ _ _ hmem
  have hpos : (0 : Int) < FOUR_HOURS_SECONDS := by decide
  exact ⟨hstep.1, by rw [hstep.1, hwfi]; omega, hstep.2⟩

/-- A concrete sparse series with a one-window gap. -/
def sparseCandles : List Candle :=
  [⟨0, 14400, 100, 110, 90, 105, 4, false⟩, ⟨28800, 43200, 106, 115, 95, 100, 5, false⟩]

/-- Witness for `backfill_contiguous_and_inherits_close` on
`sparseCandles` over the window `[0, 43200)` at index 0 (the gap bar at
index 1 is synthetic and copies close 105). -/
theorem backfill_contiguous_and_inherits_close_witness :
    (∀ c ∈ sparseCandles, c.end_time = c.start_time + FOUR_HOURS_SECONDS) ∧
    (∀ c ∈ sparseCandles, c.synthetic = false) ∧
    0 + 1 < (backfill_missing_candles sparseCandles 0 43200).length ∧
    (((backfill_missing_candles sparseCandles 0 43200).getD (0 + 1) default).start_time =
      ((backfill_missing_candles sparseCandles 0 43200).getD 0 default).end_time ∧
    ((backfill_missing_candles sparseCandles 0 43200).getD 0 default).start_time <
      ((backfill_missing_candles sparseCandles 0 43200).getD (0 + 1) default).start_time ∧
    (((backfill_missing_candles sparseCandles 0 43200).getD (0 + 1) default).synthetic = true →
      ((backfill_missing_candles sparseCandles 0 43200).getD (0 + 1) default).open_ =
        ((backfill_missing_candles sparseCandles 0 43200).getD 0 default).close ∧
      ((backfill_missing_candles sparseCandles 0 43200).getD (0 + 1) default).high =
        ((backfill_missing_candles sparseCandles 0 43200).getD 0 default).close ∧
      ((backfill_missing_candles sparseCandles 0 43200).getD (0 + 1) default).low =
        ((backfill_missing_candles sparseCandles 0 43200).getD 0 default).close ∧
      ((backfill_missing_candles sparseCandles 0 43200).getD (0 + 1) default).close =
        ((backfill_missing_candles sparseCandles 0 43200).getD 0 default).close)) :=
  ⟨by decide, by decide, by decide,
   backfill_contiguous_and_inherits_close sparseCandles 0 43200 (by decide) (by decide) 0 (by decide)⟩
